import Mathlib

/-!
Shallow embedding of the `seq` Go package (`seq.go`): generic slice helpers
for filtering, reducing, partitioning, de-duplicating, chunking and computing
minima/maxima, together with models of the Go standard-library `slices`
functions that the package calls.

Go slices are modelled as `List`, Go `int` as `Int` where a value could be
negative (loop indices, chunk sizes, comparator results) and as `Nat`
otherwise. A Go `panic` is modelled as `Option.none` for the extremum helpers
and as the explicit outcome `ChunkOut.panicked` for the chunk loop, which also
carries fuel so that non-termination is observable as `ChunkOut.fuelOut`.
-/

namespace Seq

/-- Embedding of `Filter` (seq.go): the loop appends each element `v` with
`keep v = true` to an accumulator that starts empty. -/
def Filter {T : Type} (slice : List T) (keep : T → Bool) : List T :=
  slice.foldl (fun out v => if keep v then out ++ [v] else out) []

/-- Embedding of `Reduce` (seq.go): the loop threads the accumulator through
`f` over the elements from left to right, starting from `init`. -/
def Reduce {T R : Type} (slice : List T) (init : R) (f : R → T → R) : R :=
  match slice with
  | [] => init
  | v :: rest => Reduce rest (f init v) f

/-- Embedding of the loop body of `LastIndex` (seq.go): the Go loop runs
`i = len-1, ..., 0`; the `Nat` argument here is `i + 1`, so `0` means the
loop has run past index `0` and returns `(-1, false)`. -/
def lastIndexAux {T : Type} [DecidableEq T] (slice : List T) (v : T) : Nat → Int × Bool
  | 0 => (-1, false)
  | i + 1 => if slice[i]? = some v then ((i : Int), true) else lastIndexAux slice v i

/-- Embedding of `LastIndex` (seq.go): scan from the last index downwards. -/
def LastIndex {T : Type} [DecidableEq T] (slice : List T) (v : T) : Int × Bool :=
  lastIndexAux slice v slice.length

/-- Embedding of `Partition` (seq.go): one pass appending each element to
`matches` when `pred` holds and to `nonMatches` otherwise. -/
def Partition {T : Type} (slice : List T) (pred : T → Bool) : List T × List T :=
  slice.foldl
    (fun acc v => if pred v then (acc.1 ++ [v], acc.2) else (acc.1, acc.2 ++ [v]))
    ([], [])

/-- Embedding of the loop of `Unique` (seq.go): `seen` models the contents of
the Go `map[T]struct\x7b\x7d` (only membership is observable) and `unique` is the
output accumulator. -/
def uniqueAux {T : Type} [DecidableEq T] : List T → List T → List T → List T
  | [], _, unique => unique
  | item :: rest, seen, unique =>
    if item ∈ seen then uniqueAux rest seen unique
    else uniqueAux rest (item :: seen) (unique ++ [item])

/-- Embedding of `Unique` (seq.go): loop with empty initial `seen` set and
empty output accumulator. -/
def Unique {T : Type} [DecidableEq T] (slice : List T) : List T :=
  uniqueAux slice [] []

/-- Helper for reasoning about `uniqueAux`: first-occurrence filtering
relative to an already-seen set, written in direct recursion. -/
def nubFrom {T : Type} [DecidableEq T] : List T → List T → List T
  | _, [] => []
  | seen, x :: xs => if x ∈ seen then nubFrom seen xs else x :: nubFrom (x :: seen) xs

/-- Modelled from the spec's words for `Unique`: a list keeping exactly the
first occurrence of each distinct value, in order of first occurrence. -/
def firstOccurrenceList {T : Type} [DecidableEq T] : List T → List T
  | [] => []
  | x :: xs => x :: (firstOccurrenceList xs).filter (fun y => decide (y ≠ x))

/-- Outcome of running the fuelled `Chunk` loop: normal return, a Go runtime
panic (out-of-range slice expression), or fuel exhaustion (the Go loop has not
finished within the given number of iterations). -/
inductive ChunkOut (T : Type) where
  | ok : List (List T) → ChunkOut T
  | panicked : ChunkOut T
  | fuelOut : ChunkOut T
deriving DecidableEq

/-- The Go slice expression `s[i:e]`, which panics (`none`) unless
`0 ≤ i ≤ e ≤ len(s)` and otherwise yields the elements at indices
`i, ..., e-1`. -/
def goSlice {T : Type} (s : List T) (i e : Int) : Option (List T) :=
  if 0 ≤ i ∧ i ≤ e ∧ e ≤ (s.length : Int) then
    some ((s.drop i.toNat).take (e - i).toNat)
  else none

/-- Embedding of the loop of `Chunk` (seq.go): at index `i` it takes the Go
slice `slice[i:min(i+size, len(slice))]`, appends it to `chunks`, and advances
`i` by `size`; the `Nat` argument is fuel bounding the number of iterations. -/
def chunkLoop {T : Type} (s : List T) (size : Int) : Nat → Int → List (List T) → ChunkOut T
  | 0, _, _ => ChunkOut.fuelOut
  | fuel + 1, i, chunks =>
    if i < (s.length : Int) then
      match goSlice s i (min (i + size) (s.length : Int)) with
      | none => ChunkOut.panicked
      | some c => chunkLoop s size fuel (i + size) (chunks ++ [c])
    else ChunkOut.ok chunks

/-- Embedding of `Chunk` (seq.go): run the loop from index `0` with an empty
chunk accumulator and the given amount of fuel. -/
def ChunkRun {T : Type} (s : List T) (size : Int) (fuel : Nat) : ChunkOut T :=
  chunkLoop s size fuel 0 []

/-- Helper for reasoning about the chunk loop: the consecutive blocks of `n`
elements of a list (sound for `0 < n`; the recursion is on the tail so it is
total for every `n`). -/
def chunksOf {T : Type} (n : Nat) : List T → List (List T)
  | [] => []
  | x :: xs => (x :: xs.take (n - 1)) :: chunksOf n (xs.drop (n - 1))
termination_by s => s.length
decreasing_by
  simp only [List.length_drop, List.length_cons]
  omega

/-- Modelled from the Go standard library: `slices.Min` panics on an empty
slice (`none`) and otherwise folds the builtin `min` from the first element. -/
def slicesMin {T : Type} [LinearOrder T] : List T → Option T
  | [] => none
  | x :: xs => some (xs.foldl min x)

/-- Modelled from the Go standard library: `slices.Max` panics on an empty
slice (`none`) and otherwise folds the builtin `max` from the first element. -/
def slicesMax {T : Type} [LinearOrder T] : List T → Option T
  | [] => none
  | x :: xs => some (xs.foldl max x)

/-- Embedding of `MinMax` (seq.go): the pair `(slices.Min s, slices.Max s)`,
with `none` propagating the panic on an empty slice. -/
def MinMax {T : Type} [LinearOrder T] (slice : List T) : Option (T × T) :=
  match slicesMin slice, slicesMax slice with
  | some mn, some mx => some (mn, mx)
  | _, _ => none

/-- The loop of the Go standard library `slices.MinFunc`: `m` is replaced by
`v` exactly when `cmp v m < 0`. -/
def minFoldBy {T : Type} (cmp : T → T → Int) (m : T) (xs : List T) : T :=
  xs.foldl (fun m v => if cmp v m < 0 then v else m) m

/-- The loop of the Go standard library `slices.MaxFunc`: `m` is replaced by
`v` exactly when `cmp v m > 0`. -/
def maxFoldBy {T : Type} (cmp : T → T → Int) (m : T) (xs : List T) : T :=
  xs.foldl (fun m v => if 0 < cmp v m then v else m) m

/-- Modelled from the Go standard library: `slices.MinFunc` panics on an empty
slice and otherwise runs its loop from the first element. -/
def slicesMinFunc {T : Type} (s : List T) (cmp : T → T → Int) : Option T :=
  match s with
  | [] => none
  | x :: xs => some (minFoldBy cmp x xs)

/-- Modelled from the Go standard library: `slices.MaxFunc` panics on an empty
slice and otherwise runs its loop from the first element. -/
def slicesMaxFunc {T : Type} (s : List T) (cmp : T → T → Int) : Option T :=
  match s with
  | [] => none
  | x :: xs => some (maxFoldBy cmp x xs)

/-- Embedding of `MinMaxFunc` (seq.go): the pair
`(slices.MinFunc s less, slices.MaxFunc s less)`, with `none` propagating the
panic on an empty slice. -/
def MinMaxFunc {T : Type} (slice : List T) (less : T → T → Int) : Option (T × T) :=
  match slicesMinFunc slice less, slicesMaxFunc slice less with
  | some mn, some mx => some (mn, mx)
  | _, _ => none

/-- A concrete three-way comparator on `Int`, used to exercise the comparator
hypotheses of the `MinMaxFunc` theorems on concrete inputs. -/
def intCompare (a b : Int) : Int :=
  if a < b then -1 else if b < a then 1 else 0

/-! ### Helper lemmas -/

theorem filter_loop_append {T : Type} (p : T → Bool) :
    ∀ (s : List T) (a : List T),
      s.foldl (fun out v => if p v then out ++ [v] else out) a = a ++ s.filter p := by
  intro s
  induction s with
  | nil => intro a; simp
  | cons v rest ih =>
    intro a
    by_cases h : p v <;> simp [List.filter_cons, h, ih]

theorem Filter_eq_filter {T : Type} (s : List T) (p : T → Bool) :
    Filter s p = s.filter p := by
  simpa [Filter] using filter_loop_append p s []

theorem partition_loop_append {T : Type} (p : T → Bool) :
    ∀ (s : List T) (a b : List T),
      s.foldl
        (fun acc v => if p v then (acc.1 ++ [v], acc.2) else (acc.1, acc.2 ++ [v]))
        (a, b)
      = (a ++ s.filter p, b ++ s.filter (fun v => !(p v))) := by
  intro s
  induction s with
  | nil => intro a b; simp
  | cons v rest ih =>
    intro a b
    by_cases h : p v <;> simp [List.filter_cons, h, ih]

theorem goSlice_eval {T : Type} (s : List T) (i n : Nat) (hi : i < s.length) :
    goSlice s (i : Int) (min ((i : Int) + (n : Int)) (s.length : Int))
      = some ((s.drop i).take n) := by
  have hcond : 0 ≤ (i : Int)
      ∧ (i : Int) ≤ min ((i : Int) + (n : Int)) (s.length : Int)
      ∧ min ((i : Int) + (n : Int)) (s.length : Int) ≤ (s.length : Int) := by
    refine ⟨by positivity, le_min (by omega) (by exact_mod_cast hi.le), min_le_right _ _⟩
  rw [goSlice, if_pos hcond]
  have htoNat : (min ((i : Int) + (n : Int)) (s.length : Int) - (i : Int)).toNat
      = min n (s.length - i) := by
    rcases le_total ((i : Int) + (n : Int)) (s.length : Int) with h | h
    · rw [min_eq_left h]; omega
    · rw [min_eq_right h]; omega
  have hdroplen : (s.drop i).length = s.length - i := List.length_drop i s
  have htake : (s.drop i).take (min n (s.length - i)) = (s.drop i).take n := by
    rw [List.take_eq_take, hdroplen]
    omega
  simp only [Int.toNat_ofNat, Int.toNat_natCast, htoNat, htake]

theorem chunksOf_cons_of_pos {T : Type} {n : Nat} (hn : 0 < n) (l : List T)
    (hl : l ≠ []) : chunksOf n l = l.take n :: chunksOf n (l.drop n) := by
  match l with
  | [] => exact absurd rfl hl
  | x :: xs =>
    obtain ⟨m, rfl⟩ : ∃ m, n = m + 1 := ⟨n - 1, by omega⟩
    simp [chunksOf, List.take_succ_cons, List.drop_succ_cons]

theorem chunksOf_flatten_aux {T : Type} {n : Nat} (hn : 0 < n) :
    ∀ (fuel : Nat) (s : List T), s.length ≤ fuel → (chunksOf n s).flatten = s := by
  intro fuel
  induction fuel with
  | zero =>
    intro s hs
    have : s = [] := List.length_eq_zero.mp (by omega)
    subst this
    simp [chunksOf]
  | succ f ih =>
    intro s hs
    match s with
    | [] => simp [chunksOf]
    | x :: xs =>
      rw [chunksOf_cons_of_pos hn (x :: xs) (by simp)]
      have hlen : ((x :: xs).drop n).length ≤ f := by
        simp only [List.length_drop, List.length_cons]
        simp only [List.length_cons] at hs
        omega
      simp [ih _ hlen, List.take_append_drop]

theorem chunksOf_flatten {T : Type} {n : Nat} (hn : 0 < n) (s : List T) :
    (chunksOf n s).flatten = s :=
  chunksOf_flatten_aux hn s.length s le_rfl

theorem chunksOf_ne_nil_iff {T : Type} {n : Nat} (hn : 0 < n) (l : List T) :
    chunksOf n l = [] ↔ l = [] := by
  match l with
  | [] => simp [chunksOf]
  | x :: xs => rw [chunksOf_cons_of_pos hn (x :: xs) (by simp)]; simp

theorem chunksOf_dropLast_aux {T : Type} {n : Nat} (hn : 0 < n) :
    ∀ (fuel : Nat) (s : List T), s.length ≤ fuel →
      ∀ c ∈ (chunksOf n s).dropLast, c.length = n := by
  intro fuel
  induction fuel with
  | zero =>
    intro s hs
    have : s = [] := List.length_eq_zero.mp (by omega)
    subst this
    simp [chunksOf]
  | succ f ih =>
    intro s hs c hc
    match s with
    | [] => simp [chunksOf] at hc
    | x :: xs =>
      rw [chunksOf_cons_of_pos hn (x :: xs) (by simp)] at hc
      rcases hrest : chunksOf n ((x :: xs).drop n) with _ | ⟨r, rs⟩
      · rw [hrest] at hc
        simp at hc
      · rw [hrest, List.dropLast_cons₂, List.mem_cons] at hc
        have hdrop_ne : (x :: xs).drop n ≠ [] := by
          intro hnil
          rw [(chunksOf_ne_nil_iff hn _).mpr hnil] at hrest
          exact List.noConfusion hrest
        have hnlt : n < (x :: xs).length := by
          by_contra hle
          exact hdrop_ne (List.drop_eq_nil_of_le (by omega))
        rcases hc with hc | hc
        · subst hc
          simp only [List.length_take]
          omega
        · have hlen : ((x :: xs).drop n).length ≤ f := by
            simp only [List.length_drop, List.length_cons]
            simp only [List.length_cons] at hs
            omega
          have := ih _ hlen c
          rw [hrest] at this
          exact this hc

theorem chunksOf_len_bounds_aux {T : Type} {n : Nat} (hn : 0 < n) :
    ∀ (fuel : Nat) (s : List T), s.length ≤ fuel →
      ∀ c ∈ chunksOf n s, 0 < c.length ∧ c.length ≤ n := by
  intro fuel
  induction fuel with
  | zero =>
    intro s hs
    have : s = [] := List.length_eq_zero.mp (by omega)
    subst this
    simp [chunksOf]
  | succ f ih =>
    intro s hs c hc
    match s with
    | [] => simp [chunksOf] at hc
    | x :: xs =>
      rw [chunksOf_cons_of_pos hn (x :: xs) (by simp), List.mem_cons] at hc
      rcases hc with hc | hc
      · subst hc
        simp only [List.length_take, List.length_cons]
        omega
      · have hlen : ((x :: xs).drop n).length ≤ f := by
          simp only [List.length_drop, List.length_cons]
          simp only [List.length_cons] at hs
          omega
        exact ih _ hlen c hc

theorem chunkLoop_eq_chunksOf {T : Type} (s : List T) (n : Nat) (hn : 0 < n) :
    ∀ (fuel : Nat) (i : Nat) (acc : List (List T)), s.length - i < fuel →
      chunkLoop s (n : Int) fuel (i : Int) acc
        = ChunkOut.ok (acc ++ chunksOf n (s.drop i)) := by
  intro fuel
  induction fuel with
  | zero => intro i acc hf; omega
  | succ f ih =>
    intro i acc hf
    by_cases hi : i < s.length
    · have hi' : (i : Int) < (s.length : Int) := by exact_mod_cast hi
      simp only [chunkLoop, if_pos hi', goSlice_eval s i n hi]
      have hcast : (i : Int) + (n : Int) = ((i + n : Nat) : Int) := by push_cast; ring
      rw [hcast, ih (i + n) (acc ++ [(s.drop i).take n]) (by omega)]
      have hdrop_ne : s.drop i ≠ [] := by
        intro hnil
        have := List.drop_eq_nil_iff.mp hnil
        omega
      rw [chunksOf_cons_of_pos hn (s.drop i) hdrop_ne, List.drop_drop]
      simp [Nat.add_comm]
    · have hi' : ¬ (i : Int) < (s.length : Int) := by exact_mod_cast hi
      rw [chunkLoop, if_neg hi']
      have : s.drop i = [] := List.drop_eq_nil_of_le (by omega)
      simp [this, chunksOf]

theorem chunkLoop_size_zero_diverges {T : Type} (s : List T) :
    ∀ (fuel : Nat) (i : Int) (acc : List (List T)), 0 ≤ i → i < (s.length : Int) →
      chunkLoop s 0 fuel i acc = ChunkOut.fuelOut := by
  intro fuel
  induction fuel with
  | zero => intro i acc _ _; rfl
  | succ f ih =>
    intro i acc h0 hi
    rw [chunkLoop, if_pos hi]
    have hmin : min (i + 0) (s.length : Int) = i := by
      rw [add_zero]
      exact min_eq_left hi.le
    have hslice : goSlice s i (min (i + 0) (s.length : Int)) = some [] := by
      rw [hmin, goSlice, if_pos ⟨h0, le_refl i, hi.le⟩]
      simp
    rw [hslice]
    simpa using ih (i + 0) (acc ++ [[]]) (by omega) (by omega)

/-! ### Claim theorems -/

/-- C2: calling `MinMax` or `MinMaxFunc` on an empty sequence reaches the
panic of `slices.Min` / `slices.MinFunc` (modelled as `none`) rather than
returning any value. -/
theorem minMax_empty_panics (T : Type) [LinearOrder T] (less : T → T → Int) :
    MinMax ([] : List T) = none ∧ MinMaxFunc ([] : List T) less = none :=
  ⟨rfl, rfl⟩

/-- C4: `Reduce` is the left fold of `f` over the sequence starting from
`init`; on the empty sequence it returns `init` unchanged; and instrumenting
the combine function to log its second argument shows that it is invoked
exactly once per element in left-to-right order (the log equals the input). -/
theorem reduce_left_fold (T R : Type) (s : List T) (init : R) (f : R → T → R) :
    Reduce s init f = s.foldl f init
    ∧ Reduce ([] : List T) init f = init
    ∧ Reduce s (init, ([] : List T)) (fun acc v => (f acc.1 v, acc.2 ++ [v]))
        = (Reduce s init f, s) := by
  have hfold : ∀ (s : List T) (init : R), Reduce s init f = s.foldl f init := by
    intro s
    induction s with
    | nil => intro init; rfl
    | cons v rest ih => intro init; simp [Reduce, ih]
  have htrace : ∀ (s : List T) (init : R) (log : List T),
      Reduce s (init, log) (fun acc v => (f acc.1 v, acc.2 ++ [v]))
        = (Reduce s init f, log ++ s) := by
    intro s
    induction s with
    | nil => intro init log; simp [Reduce]
    | cons v rest ih => intro init log; simp [Reduce, ih]
  refine ⟨hfold s init, rfl, ?_⟩
  simpa using htrace s init []

/-- C5: `Partition` returns exactly `(Filter s p, Filter s (not p))`. -/
theorem partition_eq_filters (T : Type) (s : List T) (p : T → Bool) :
    Partition s p = (Filter s p, Filter s (fun v => !(p v))) := by
  rw [Filter_eq_filter, Filter_eq_filter]
  simpa [Partition] using partition_loop_append p s [] []

/-- C10: on the empty sequence the `Chunk` loop exits at once for every chunk
size, including non-positive ones, returning an empty list of chunks. -/
theorem chunk_empty_ok (T : Type) (size : Int) (fuel : Nat) (hf : 0 < fuel) :
    ChunkRun ([] : List T) size fuel = ChunkOut.ok [] := by
  cases fuel with
  | zero => exact absurd hf (by omega)
  | succ f => simp [ChunkRun, chunkLoop]

/-- Witness for C10 at a negative chunk size. -/
theorem chunk_empty_ok_witness :
    0 < 1 ∧ ChunkRun ([] : List Int) (-3) 1 = ChunkOut.ok [] :=
  ⟨by decide, chunk_empty_ok Int (-3) 1 (by decide)⟩

theorem foldl_min_mem {T : Type} [LinearOrder T] :
    ∀ (xs : List T) (x : T), xs.foldl min x ∈ x :: xs := by
  intro xs
  induction xs with
  | nil => intro x; simp
  | cons v rest ih =>
    intro x
    rw [List.foldl_cons]
    rcases List.mem_cons.mp (ih (min x v)) with h' | h'
    · rcases min_choice x v with hm | hm
      · rw [h', hm]; exact List.mem_cons_self _ _
      · rw [h', hm]; exact List.mem_cons_of_mem _ (List.mem_cons_self _ _)
    · exact List.mem_cons_of_mem _ (List.mem_cons_of_mem _ h')

theorem foldl_min_le {T : Type} [LinearOrder T] :
    ∀ (xs : List T) (x : T), ∀ e ∈ x :: xs, xs.foldl min x ≤ e := by
  intro xs
  induction xs with
  | nil => intro x e he; simp at he; simp [he]
  | cons v rest ih =>
    intro x e he
    rw [List.foldl_cons]
    have hbase : rest.foldl min (min x v) ≤ min x v :=
      ih (min x v) _ (List.mem_cons_self _ _)
    rcases List.mem_cons.mp he with h | h
    · rw [h]; exact le_trans hbase (min_le_left _ _)
    · rcases List.mem_cons.mp h with h2 | h2
      · rw [h2]; exact le_trans hbase (min_le_right _ _)
      · exact ih (min x v) e (List.mem_cons_of_mem _ h2)

theorem foldl_max_mem {T : Type} [LinearOrder T] :
    ∀ (xs : List T) (x : T), xs.foldl max x ∈ x :: xs := by
  intro xs
  induction xs with
  | nil => intro x; simp
  | cons v rest ih =>
    intro x
    rw [List.foldl_cons]
    rcases List.mem_cons.mp (ih (max x v)) with h' | h'
    · rcases max_choice x v with hm | hm
      · rw [h', hm]; exact List.mem_cons_self _ _
      · rw [h', hm]; exact List.mem_cons_of_mem _ (List.mem_cons_self _ _)
    · exact List.mem_cons_of_mem _ (List.mem_cons_of_mem _ h')

theorem foldl_max_ge {T : Type} [LinearOrder T] :
    ∀ (xs : List T) (x : T), ∀ e ∈ x :: xs, e ≤ xs.foldl max x := by
  intro xs
  induction xs with
  | nil => intro x e he; simp at he; simp [he]
  | cons v rest ih =>
    intro x e he
    rw [List.foldl_cons]
    have hbase : max x v ≤ rest.foldl max (max x v) :=
      ih (max x v) _ (List.mem_cons_self _ _)
    rcases List.mem_cons.mp he with h | h
    · rw [h]; exact le_trans (le_max_left _ _) hbase
    · rcases List.mem_cons.mp h with h2 | h2
      · rw [h2]; exact le_trans (le_max_right _ _) hbase
      · exact ih (max x v) e (List.mem_cons_of_mem _ h2)

/-- C1: for every positive chunk size `n`, the `Chunk` loop (given fuel
`len + 1`, which suffices) returns chunks whose concatenation is the input,
with every chunk except possibly the last of length exactly `n` and every
chunk non-empty of length at most `n`. -/
theorem chunk_concat_correct (T : Type) (s : List T) (n : Nat) (hn : 0 < n) :
    ∃ cs, ChunkRun s (n : Int) (s.length + 1) = ChunkOut.ok cs
      ∧ cs.flatten = s
      ∧ (∀ c ∈ cs.dropLast, c.length = n)
      ∧ (∀ c ∈ cs, 0 < c.length ∧ c.length ≤ n) := by
  refine ⟨chunksOf n s, ?_, ?_, ?_, ?_⟩
  · have h := chunkLoop_eq_chunksOf s n hn (s.length + 1) 0 [] (by omega)
    simpa [ChunkRun] using h
  · exact chunksOf_flatten hn s
  · exact chunksOf_dropLast_aux hn s.length s le_rfl
  · exact chunksOf_len_bounds_aux hn s.length s le_rfl

/-- Witness for C1 on `[1,2,3,4,5]` with chunk size `2`. -/
theorem chunk_concat_correct_witness :
    0 < 2 ∧
      ∃ cs,
        ChunkRun ([1, 2, 3, 4, 5] : List Int) ((2 : Nat) : Int)
            (([1, 2, 3, 4, 5] : List Int).length + 1) = ChunkOut.ok cs
          ∧ cs.flatten = [1, 2, 3, 4, 5]
          ∧ (∀ c ∈ cs.dropLast, c.length = 2)
          ∧ (∀ c ∈ cs, 0 < c.length ∧ c.length ≤ 2) :=
  ⟨by decide, chunk_concat_correct Int [1, 2, 3, 4, 5] 2 (by decide)⟩

/-- C8: for positive sizes the `Chunk` loop terminates within `len + 1`
iterations of fuel; with size `0` on a non-empty sequence the loop never
finishes, whatever the fuel (the non-positive-size behavior is undefined and
can indeed loop indefinitely). -/
theorem chunk_termination (T : Type) (s : List T) (n : Int) :
    (0 < n → ∃ cs, ChunkRun s n (s.length + 1) = ChunkOut.ok cs)
    ∧ (s ≠ [] → ∀ fuel, ChunkRun s 0 fuel = ChunkOut.fuelOut) := by
  constructor
  · intro hn
    obtain ⟨m, hm, rfl⟩ : ∃ m : Nat, 0 < m ∧ n = (m : Int) :=
      ⟨n.toNat, by omega, by omega⟩
    refine ⟨chunksOf m s, ?_⟩
    have h := chunkLoop_eq_chunksOf s m hm (s.length + 1) 0 [] (by omega)
    simpa [ChunkRun] using h
  · intro hne fuel
    have hlen : 0 < s.length := List.length_pos.mpr hne
    have h := chunkLoop_size_zero_diverges s fuel 0 [] le_rfl (by exact_mod_cast hlen)
    simpa [ChunkRun] using h

/-- Witness for C8: size `2` terminates on `[1,2,3]`, size `0` exhausts any
amount of fuel. -/
theorem chunk_termination_witness :
    (∃ cs, ChunkRun ([1, 2, 3] : List Int) 2 (([1, 2, 3] : List Int).length + 1)
        = ChunkOut.ok cs)
    ∧ ChunkRun ([1, 2, 3] : List Int) 0 5 = ChunkOut.fuelOut :=
  ⟨(chunk_termination Int [1, 2, 3] 2).1 (by decide),
    (chunk_termination Int [1, 2, 3] 0).2 (by decide) 5⟩

theorem uniqueAux_eq_nubFrom {T : Type} [DecidableEq T] :
    ∀ (s seen acc : List T), uniqueAux s seen acc = acc ++ nubFrom seen s := by
  intro s
  induction s with
  | nil => intro seen acc; simp [uniqueAux, nubFrom]
  | cons x xs ih =>
    intro seen acc
    by_cases h : x ∈ seen
    · simp [uniqueAux, nubFrom, h, ih]
    · simp [uniqueAux, nubFrom, h, ih]

theorem nubFrom_not_mem_seen {T : Type} [DecidableEq T] :
    ∀ (s seen : List T), ∀ x ∈ nubFrom seen s, x ∉ seen := by
  intro s
  induction s with
  | nil => intro seen x hx; simp [nubFrom] at hx
  | cons y ys ih =>
    intro seen x hx
    by_cases h : y ∈ seen
    · rw [nubFrom, if_pos h] at hx
      exact ih seen x hx
    · rw [nubFrom, if_neg h] at hx
      rcases List.mem_cons.mp hx with hxy | hx'
      · rw [hxy]; exact h
      · intro hmem
        exact ih (y :: seen) x hx' (List.mem_cons_of_mem _ hmem)

theorem nubFrom_nodup {T : Type} [DecidableEq T] :
    ∀ (s seen : List T), (nubFrom seen s).Nodup := by
  intro s
  induction s with
  | nil => intro seen; simp [nubFrom]
  | cons y ys ih =>
    intro seen
    by_cases h : y ∈ seen
    · rw [nubFrom, if_pos h]; exact ih seen
    · rw [nubFrom, if_neg h]
      refine List.nodup_cons.mpr ⟨?_, ih (y :: seen)⟩
      intro hy
      exact nubFrom_not_mem_seen ys (y :: seen) y hy (List.mem_cons_self _ _)

theorem nubFrom_of_nodup {T : Type} [DecidableEq T] :
    ∀ (l seen : List T), l.Nodup → (∀ x ∈ l, x ∉ seen) → nubFrom seen l = l := by
  intro l
  induction l with
  | nil => intro seen _ _; simp [nubFrom]
  | cons x xs ih =>
    intro seen hnd hmem
    have hx : x ∉ seen := hmem x (List.mem_cons_self _ _)
    rw [nubFrom, if_neg hx]
    congr 1
    apply ih (x :: seen) (List.nodup_cons.mp hnd).2
    intro y hy hmem'
    rcases List.mem_cons.mp hmem' with hyx | h2
    · exact (List.nodup_cons.mp hnd).1 (hyx ▸ hy)
    · exact hmem y (List.mem_cons_of_mem _ hy) h2

theorem nubFrom_eq_filter_firstOccurrence {T : Type} [DecidableEq T] :
    ∀ (s seen : List T),
      nubFrom seen s = (firstOccurrenceList s).filter (fun y => decide (y ∉ seen)) := by
  intro s
  induction s with
  | nil => intro seen; simp [nubFrom, firstOccurrenceList]
  | cons x xs ih =>
    intro seen
    by_cases h : x ∈ seen
    · rw [nubFrom, if_pos h, firstOccurrenceList]
      rw [List.filter_cons_of_neg (by simp [h]), List.filter_filter, ih seen]
      apply List.filter_congr
      intro a _
      by_cases ha : a ∈ seen
      · simp [ha]
      · have hax : a ≠ x := fun hax => ha (hax ▸ h)
        simp [ha, hax]
    · rw [nubFrom, if_neg h, firstOccurrenceList]
      rw [List.filter_cons_of_pos (by simp [h]), List.filter_filter, ih (x :: seen)]
      congr 1
      apply List.filter_congr
      intro a _
      by_cases h1 : a = x
      · simp [h1]
      · by_cases h2 : a ∈ seen <;> simp [h1, h2, List.mem_cons]

theorem unique_eq_nubFrom {T : Type} [DecidableEq T] (s : List T) :
    Unique s = nubFrom [] s := by
  simpa [Unique] using uniqueAux_eq_nubFrom s [] []

theorem lastIndexAux_none {T : Type} [DecidableEq T] (slice : List T) (v : T) :
    ∀ n, (∀ j, j < n → slice[j]? ≠ some v) → lastIndexAux slice v n = (-1, false) := by
  intro n
  induction n with
  | zero => intro _; rfl
  | succ m ih =>
    intro h
    rw [lastIndexAux, if_neg (h m (Nat.lt_succ_self m))]
    exact ih fun j hj => h j (by omega)

theorem lastIndexAux_found {T : Type} [DecidableEq T] (slice : List T) (v : T) :
    ∀ n i, i < n → slice[i]? = some v →
      (∀ j, i < j → j < n → slice[j]? ≠ some v) →
      lastIndexAux slice v n = ((i : Int), true) := by
  intro n
  induction n with
  | zero => intro i hi _ _; omega
  | succ m ih =>
    intro i hi hv hmax
    by_cases hm : slice[m]? = some v
    · have him : i = m := by
        by_contra hne
        exact (hmax m (by omega) (by omega)) hm
      rw [him, lastIndexAux, if_pos hm]
    · have him : i ≠ m := fun h => hm (h ▸ hv)
      rw [lastIndexAux, if_neg hm]
      exact ih i (by omega) hv fun j hj1 hj2 => hmax j hj1 (by omega)

theorem exists_greatest_match {T : Type} [DecidableEq T] (slice : List T) (v : T) :
    ∀ n : Nat, (∃ j : Nat, j < n ∧ slice[j]? = some v) →
      ∃ i : Nat, i < n ∧ slice[i]? = some v
        ∧ ∀ j : Nat, i < j → j < n → slice[j]? ≠ some v := by
  intro n
  induction n with
  | zero => rintro ⟨j, hj, _⟩; omega
  | succ m ih =>
    rintro ⟨j, hj, hjv⟩
    by_cases hm : slice[m]? = some v
    · exact ⟨m, by omega, hm, fun k hk1 hk2 => by omega⟩
    · have hj' : j < m := by
        have : j < m ∨ j = m := by omega
        rcases this with h | h
        · exact h
        · exact absurd (h ▸ hjv) hm
      obtain ⟨i, hi, hiv, hmax⟩ := ih ⟨j, hj', hjv⟩
      refine ⟨i, by omega, hiv, ?_⟩
      intro k hk1 hk2
      have : k < m ∨ k = m := by omega
      rcases this with h | h
      · exact hmax k hk1 h
      · exact h ▸ hm

theorem cmp_self_le {T : Type} (less : T → T → Int)
    (hflip : ∀ a b, 0 ≤ less a b ↔ less b a ≤ 0) (a : T) : less a a ≤ 0 := by
  rcases le_or_lt (less a a) 0 with h | h
  · exact h
  · exact (hflip a a).mp (by omega)

theorem cmp_lt_of_le_of_lt {T : Type} (less : T → T → Int)
    (hflip : ∀ a b, 0 ≤ less a b ↔ less b a ≤ 0)
    (htrans : ∀ a b c, less a b ≤ 0 → less b c ≤ 0 → less a c ≤ 0)
    {a b c : T} (hab : less a b ≤ 0) (hbc : less b c < 0) : less a c < 0 := by
  by_contra h
  have h1 : 0 ≤ less a c := by omega
  have h2 : less c a ≤ 0 := (hflip a c).mp h1
  have h3 : less c b ≤ 0 := htrans c a b h2 hab
  have h4 : 0 ≤ less b c := (hflip b c).mpr h3
  omega

theorem cmp_lt_of_lt_of_le {T : Type} (less : T → T → Int)
    (hflip : ∀ a b, 0 ≤ less a b ↔ less b a ≤ 0)
    (htrans : ∀ a b c, less a b ≤ 0 → less b c ≤ 0 → less a c ≤ 0)
    {a b c : T} (hab : less a b < 0) (hbc : less b c ≤ 0) : less a c < 0 := by
  by_contra h
  have h1 : 0 ≤ less a c := by omega
  have h2 : less c a ≤ 0 := (hflip a c).mp h1
  have h3 : less b a ≤ 0 := htrans b c a hbc h2
  have h4 : 0 ≤ less a b := (hflip a b).mpr h3
  omega

theorem cmp_lt_flip {T : Type} (less : T → T → Int)
    (hflip : ∀ a b, 0 ≤ less a b ↔ less b a ≤ 0)
    {a b : T} (h : 0 < less a b) : less b a < 0 := by
  by_contra hc
  have h1 : 0 ≤ less b a := by omega
  have h2 : less a b ≤ 0 := (hflip b a).mp h1
  omega

theorem minFoldBy_cons {T : Type} (less : T → T → Int) (m v : T) (xs : List T) :
    minFoldBy less m (v :: xs) = minFoldBy less (if less v m < 0 then v else m) xs := by
  simp [minFoldBy]

theorem maxFoldBy_cons {T : Type} (less : T → T → Int) (m v : T) (xs : List T) :
    maxFoldBy less m (v :: xs) = maxFoldBy less (if 0 < less v m then v else m) xs := by
  simp [maxFoldBy]

theorem minFoldBy_spec {T : Type} (less : T → T → Int)
    (hflip : ∀ a b, 0 ≤ less a b ↔ less b a ≤ 0)
    (htrans : ∀ a b c, less a b ≤ 0 → less b c ≤ 0 → less a c ≤ 0) :
    ∀ (xs : List T) (m : T),
      less (minFoldBy less m xs) m ≤ 0
      ∧ (∀ e ∈ xs, less (minFoldBy less m xs) e ≤ 0)
      ∧ (minFoldBy less m xs = m
        ∨ ∃ pre post, xs = pre ++ minFoldBy less m xs :: post
            ∧ less (minFoldBy less m xs) m < 0
            ∧ ∀ e ∈ pre, less (minFoldBy less m xs) e < 0) := by
  intro xs
  induction xs with
  | nil =>
    intro m
    exact ⟨cmp_self_le less hflip m, by simp, Or.inl rfl⟩
  | cons v rest ih =>
    intro m
    by_cases hv : less v m < 0
    · rw [minFoldBy_cons, if_pos hv]
      obtain ⟨h1, h2, h3⟩ := ih v
      refine ⟨le_of_lt (cmp_lt_of_le_of_lt less hflip htrans h1 hv), ?_, ?_⟩
      · intro e he
        rcases List.mem_cons.mp he with hev | he'
        · rw [hev]; exact h1
        · exact h2 e he'
      · right
        rcases h3 with hrv | ⟨pre, post, hxs, hlt, hpre⟩
        · refine ⟨[], rest, by simp [hrv], ?_, by simp⟩
          rw [hrv]; exact hv
        · refine ⟨v :: pre, post, by rw [List.cons_append, ← hxs],
            cmp_lt_of_lt_of_le less hflip htrans hlt (le_of_lt hv), ?_⟩
          intro e he
          rcases List.mem_cons.mp he with hev | he'
          · rw [hev]; exact hlt
          · exact hpre e he'
    · rw [minFoldBy_cons, if_neg hv]
      obtain ⟨h1, h2, h3⟩ := ih m
      have hmv : less m v ≤ 0 := (hflip v m).mp (by omega)
      refine ⟨h1, ?_, ?_⟩
      · intro e he
        rcases List.mem_cons.mp he with hev | he'
        · rw [hev]; exact htrans _ _ _ h1 hmv
        · exact h2 e he'
      · rcases h3 with hrm | ⟨pre, post, hxs, hlt, hpre⟩
        · exact Or.inl hrm
        · right
          refine ⟨v :: pre, post, by rw [List.cons_append, ← hxs], hlt, ?_⟩
          intro e he
          rcases List.mem_cons.mp he with hev | he'
          · rw [hev]; exact cmp_lt_of_lt_of_le less hflip htrans hlt hmv
          · exact hpre e he'

theorem maxFoldBy_spec {T : Type} (less : T → T → Int)
    (hflip : ∀ a b, 0 ≤ less a b ↔ less b a ≤ 0)
    (htrans : ∀ a b c, less a b ≤ 0 → less b c ≤ 0 → less a c ≤ 0) :
    ∀ (xs : List T) (m : T),
      less m (maxFoldBy less m xs) ≤ 0
      ∧ (∀ e ∈ xs, less e (maxFoldBy less m xs) ≤ 0)
      ∧ (maxFoldBy less m xs = m
        ∨ ∃ pre post, xs = pre ++ maxFoldBy less m xs :: post
            ∧ less m (maxFoldBy less m xs) < 0
            ∧ ∀ e ∈ pre, less e (maxFoldBy less m xs) < 0) := by
  intro xs
  induction xs with
  | nil =>
    intro m
    exact ⟨cmp_self_le less hflip m, by simp, Or.inl rfl⟩
  | cons v rest ih =>
    intro m
    by_cases hv : 0 < less v m
    · rw [maxFoldBy_cons, if_pos hv]
      obtain ⟨h1, h2, h3⟩ := ih v
      have hmv : less m v < 0 := cmp_lt_flip less hflip hv
      have hmr : less m (maxFoldBy less v rest) < 0 :=
        cmp_lt_of_lt_of_le less hflip htrans hmv h1
      refine ⟨le_of_lt hmr, ?_, ?_⟩
      · intro e he
        rcases List.mem_cons.mp he with hev | he'
        · rw [hev]; exact h1
        · exact h2 e he'
      · right
        rcases h3 with hrv | ⟨pre, post, hxs, hlt, hpre⟩
        · exact ⟨[], rest, by simp [hrv], hmr, by simp⟩
        · refine ⟨v :: pre, post, by rw [List.cons_append, ← hxs], hmr, ?_⟩
          intro e he
          rcases List.mem_cons.mp he with hev | he'
          · rw [hev]; exact hlt
          · exact hpre e he'
    · rw [maxFoldBy_cons, if_neg hv]
      obtain ⟨h1, h2, h3⟩ := ih m
      have hvm : less v m ≤ 0 := by omega
      refine ⟨h1, ?_, ?_⟩
      · intro e he
        rcases List.mem_cons.mp he with hev | he'
        · rw [hev]; exact htrans _ _ _ hvm h1
        · exact h2 e he'
      · rcases h3 with hrm | ⟨pre, post, hxs, hlt, hpre⟩
        · exact Or.inl hrm
        · right
          refine ⟨v :: pre, post, by rw [List.cons_append, ← hxs], hlt, ?_⟩
          intro e he
          rcases List.mem_cons.mp he with hev | he'
          · rw [hev]
            exact cmp_lt_of_le_of_lt less hflip htrans hvm hlt
          · exact hpre e he'

/-- C3: on a non-empty sequence over a totally ordered type, `MinMax` returns
a pair `(mn, mx)` of elements of the sequence with `mn ≤ e ≤ mx` for every
element `e`. -/
theorem minMax_bounds (T : Type) [LinearOrder T] (s : List T) (hne : s ≠ []) :
    ∃ mn mx, MinMax s = some (mn, mx)
      ∧ mn ∈ s ∧ mx ∈ s ∧ ∀ e ∈ s, mn ≤ e ∧ e ≤ mx := by
  match s with
  | [] => exact absurd rfl hne
  | x :: xs =>
    refine ⟨xs.foldl min x, xs.foldl max x, rfl, foldl_min_mem xs x, foldl_max_mem xs x, ?_⟩
    intro e he
    exact ⟨foldl_min_le xs x e he, foldl_max_ge xs x e he⟩

/-- Witness for C3 on `[5,2,9,1]`. -/
theorem minMax_bounds_witness :
    ([5, 2, 9, 1] : List Int) ≠ []
    ∧ ∃ mn mx, MinMax ([5, 2, 9, 1] : List Int) = some (mn, mx)
        ∧ mn ∈ ([5, 2, 9, 1] : List Int) ∧ mx ∈ ([5, 2, 9, 1] : List Int)
        ∧ ∀ e ∈ ([5, 2, 9, 1] : List Int), mn ≤ e ∧ e ≤ mx :=
  ⟨by decide, minMax_bounds Int [5, 2, 9, 1] (by decide)⟩

/-- C6: `Unique` is idempotent, and it equals the list that keeps exactly the
first occurrence of each distinct value in order of first occurrence. -/
theorem unique_idempotent_firstOccurrence (T : Type) [DecidableEq T] (s : List T) :
    Unique (Unique s) = Unique s ∧ Unique s = firstOccurrenceList s := by
  constructor
  · rw [unique_eq_nubFrom (Unique s)]
    apply nubFrom_of_nodup
    · rw [unique_eq_nubFrom s]
      exact nubFrom_nodup s []
    · intro x _
      simp
  · rw [unique_eq_nubFrom s, nubFrom_eq_filter_firstOccurrence s []]
    apply List.filter_eq_self.mpr
    intro a _
    simp

/-- C7: `LastIndex` returns the highest index holding the target together
with `true`, and `(-1, false)` when the target does not occur. -/
theorem lastIndex_spec (T : Type) [DecidableEq T] (s : List T) (v : T) :
    (v ∈ s → ∃ i : Nat, LastIndex s v = ((i : Int), true)
        ∧ s[i]? = some v ∧ ∀ j, i < j → s[j]? ≠ some v)
    ∧ (v ∉ s → LastIndex s v = (-1, false)) := by
  constructor
  · intro hv
    obtain ⟨j, hjv⟩ := List.mem_iff_getElem?.mp hv
    have hj : j < s.length := by
      rcases List.getElem?_eq_some.mp hjv with ⟨h, _⟩
      exact h
    obtain ⟨i, hi, hiv, hmax⟩ := exists_greatest_match s v s.length ⟨j, hj, hjv⟩
    refine ⟨i, ?_, hiv, ?_⟩
    · exact lastIndexAux_found s v s.length i hi hiv hmax
    · intro k hk
      by_cases hkl : k < s.length
      · exact hmax k hk hkl
      · intro hcontra
        rcases List.getElem?_eq_some.mp hcontra with ⟨h, _⟩
        omega
  · intro hv
    apply lastIndexAux_none
    intro j _ hcontra
    exact hv (List.mem_iff_getElem?.mpr ⟨j, hcontra⟩)

/-- Witness for C7: last occurrence of `2` in `[1,2,3,2]` is at index `3`;
`5` does not occur. -/
theorem lastIndex_spec_witness :
    ((2 : Int) ∈ ([1, 2, 3, 2] : List Int)
      ∧ ∃ i : Nat, LastIndex ([1, 2, 3, 2] : List Int) 2 = ((i : Int), true)
          ∧ ([1, 2, 3, 2] : List Int)[i]? = some 2
          ∧ ∀ j, i < j → ([1, 2, 3, 2] : List Int)[j]? ≠ some 2)
    ∧ ((5 : Int) ∉ ([1, 2, 3, 2] : List Int)
      ∧ LastIndex ([1, 2, 3, 2] : List Int) 5 = (-1, false)) :=
  ⟨⟨by decide, (lastIndex_spec Int [1, 2, 3, 2] 2).1 (by decide)⟩,
    ⟨by decide, (lastIndex_spec Int [1, 2, 3, 2] 5).2 (by decide)⟩⟩

/-- C9: for a comparator satisfying the documented total-order contract
(`less b a` has the opposite sign of `less a b`, and `≤` is transitive),
`MinMaxFunc` returns as minimum the first element in input order that is
minimal (everything before it is strictly greater) and as maximum the first
element that is maximal (everything before it is strictly smaller). -/
theorem minMaxFunc_first_tie (T : Type) (s : List T) (less : T → T → Int)
    (hne : s ≠ [])
    (hflip : ∀ a b, 0 ≤ less a b ↔ less b a ≤ 0)
    (htrans : ∀ a b c, less a b ≤ 0 → less b c ≤ 0 → less a c ≤ 0) :
    ∃ mn mx, MinMaxFunc s less = some (mn, mx)
      ∧ (∃ pre post, s = pre ++ mn :: post
          ∧ (∀ e ∈ s, less mn e ≤ 0) ∧ ∀ e ∈ pre, less mn e < 0)
      ∧ (∃ pre post, s = pre ++ mx :: post
          ∧ (∀ e ∈ s, less e mx ≤ 0) ∧ ∀ e ∈ pre, less e mx < 0) := by
  match s with
  | [] => exact absurd rfl hne
  | x :: xs =>
    obtain ⟨hn1, hn2, hn3⟩ := minFoldBy_spec less hflip htrans xs x
    obtain ⟨hx1, hx2, hx3⟩ := maxFoldBy_spec less hflip htrans xs x
    refine ⟨minFoldBy less x xs, maxFoldBy less x xs, rfl, ?_, ?_⟩
    · have hall : ∀ e ∈ x :: xs, less (minFoldBy less x xs) e ≤ 0 := by
        intro e he
        rcases List.mem_cons.mp he with hev | he'
        · rw [hev]; exact hn1
        · exact hn2 e he'
      rcases hn3 with hrx | ⟨pre, post, hxs, hlt, hpre⟩
      · exact ⟨[], xs, by simp [hrx], hall, by simp⟩
      · refine ⟨x :: pre, post, by rw [List.cons_append, ← hxs], hall, ?_⟩
        intro e he
        rcases List.mem_cons.mp he with hev | he'
        · rw [hev]; exact hlt
        · exact hpre e he'
    · have hall : ∀ e ∈ x :: xs, less e (maxFoldBy less x xs) ≤ 0 := by
        intro e he
        rcases List.mem_cons.mp he with hev | he'
        · rw [hev]; exact hx1
        · exact hx2 e he'
      rcases hx3 with hrx | ⟨pre, post, hxs, hlt, hpre⟩
      · exact ⟨[], xs, by simp [hrx], hall, by simp⟩
      · refine ⟨x :: pre, post, by rw [List.cons_append, ← hxs], hall, ?_⟩
        intro e he
        rcases List.mem_cons.mp he with hev | he'
        · rw [hev]; exact hlt
        · exact hpre e he'

/-- Witness for C9 on `[2,1,3,1,3]` with the concrete comparator
`intCompare`: the returned minimum is the `1` at index `1` and the returned
maximum is the `3` at index `2`. -/
theorem minMaxFunc_first_tie_witness :
    (([2, 1, 3, 1, 3] : List Int) ≠ []
      ∧ (∀ a b : Int, 0 ≤ intCompare a b ↔ intCompare b a ≤ 0)
      ∧ ∀ a b c : Int,
          intCompare a b ≤ 0 → intCompare b c ≤ 0 → intCompare a c ≤ 0)
    ∧ ∃ mn mx, MinMaxFunc ([2, 1, 3, 1, 3] : List Int) intCompare = some (mn, mx)
        ∧ (∃ pre post, ([2, 1, 3, 1, 3] : List Int) = pre ++ mn :: post
            ∧ (∀ e ∈ ([2, 1, 3, 1, 3] : List Int), intCompare mn e ≤ 0)
            ∧ ∀ e ∈ pre, intCompare mn e < 0)
        ∧ (∃ pre post, ([2, 1, 3, 1, 3] : List Int) = pre ++ mx :: post
            ∧ (∀ e ∈ ([2, 1, 3, 1, 3] : List Int), intCompare e mx ≤ 0)
            ∧ ∀ e ∈ pre, intCompare e mx < 0) := by
  have hflip : ∀ a b : Int, 0 ≤ intCompare a b ↔ intCompare b a ≤ 0 := by
    intro a b
    unfold intCompare
    split_ifs <;> omega
  have htrans : ∀ a b c : Int,
      intCompare a b ≤ 0 → intCompare b c ≤ 0 → intCompare a c ≤ 0 := by
    intro a b c h1 h2
    unfold intCompare at h1 h2 ⊢
    split_ifs at h1 h2 ⊢ <;> omega
  exact ⟨⟨by decide, hflip, htrans⟩,
    minMaxFunc_first_tie Int [2, 1, 3, 1, 3] intCompare (by decide) hflip htrans⟩

end Seq
